import Mathlib

/- Verification development for the Medipim export and photo tool (app.py).
   The Python functions are shallowly embedded as Lean definitions over
   explicit data; external collaborators (HTTP fetch, PIL decode and resize,
   JPEG encoding, hashlib.md5) are modelled as parameters gathered in an
   environment record, so that the control flow and the bookkeeping of the
   source stay concrete while library calls stay abstract. -/

namespace Medipim

/- ----- character-level models of the Python string operations used ----- -/

/-- Model of str.lower for the ASCII strings handled by the tool. -/
def lowerStr (s : String) : String := ⟨s.data.map Char.toLower⟩

/-- Model of str.strip: whitespace removed from both ends. -/
def trimStr (s : String) : String :=
  ⟨((s.data.dropWhile Char.isWhitespace).reverse.dropWhile Char.isWhitespace).reverse⟩

/-- Token boundaries of the textarea tokenizer: sku_text.replace(",", " ")
followed by str.split() makes commas and whitespace the separators. -/
def isSep (c : Char) : Bool := c.isWhitespace || c == ','

/-- Splitting on separator runs, dropping empty pieces, like str.split(); the
accumulator holds the characters of the current word in reverse. -/
def wordsAux (acc : List Char) : List Char → List String
  | [] => if acc.isEmpty then [] else [String.mk acc.reverse]
  | c :: rest =>
    if isSep c then
      if acc.isEmpty then wordsAux [] rest else String.mk acc.reverse :: wordsAux [] rest
    else wordsAux (c :: acc) rest

/-- Token list of the textarea content in parse_skus: commas replaced by
spaces, split on whitespace, stripped, empties dropped.  The strip and the
emptiness filter of the source are no-ops on tokens produced by str.split,
which contain no whitespace, so splitting on separator runs is the same
function. -/
def tokenize (skuText : String) : List String := wordsAux [] skuText.data

/- ----------------------------- parse_skus ----------------------------- -/

/-- Outcome of the optional Excel upload as seen inside parse_skus:
pd.read_excel can raise (readFailed); otherwise the workbook supplies column
headers and the cells of the sku column rendered as strings by astype(str). -/
inductive UploadResult where
  | readFailed : UploadResult
  | table : List String → List String → UploadResult

/-- The dedup loop of parse_skus: a seen set plus an output list that keeps
the first occurrence of every value, in input order. -/
def dedupAux (seen : List String) : List String → List String
  | [] => []
  | s :: rest => if s ∈ seen then dedupAux seen rest else s :: dedupAux (s :: seen) rest

/-- parse_skus from app.py: merge the textarea tokens with the sku column of
an optional Excel upload, then optionally deduplicate by exact string value,
preserving first-seen order.  A failed read, or a workbook without a sku
column (headers compared lower-cased), returns the empty list at once,
discarding the textarea tokens as well. -/
def parseSkus (skuText : String) (uploaded : Option UploadResult) (dedupOn : Bool) :
    List String :=
  let base := if skuText = "" then [] else tokenize skuText
  match uploaded with
  | none => if dedupOn then dedupAux [] base else base
  | some .readFailed => []
  | some (.table cols skuCells) =>
    if "sku" ∈ cols.map lowerStr then
      let merged := base ++ (skuCells.map trimStr).filter (fun s => s != "")
      if dedupOn then dedupAux [] merged else merged
    else []

theorem mem_dedupAux {x : String} : ∀ {l seen : List String},
    x ∈ dedupAux seen l ↔ x ∈ l ∧ x ∉ seen := by
  intro l
  induction l with
  | nil => intro seen; simp [dedupAux]
  | cons s rest ih =>
    intro seen
    by_cases hs : s ∈ seen
    · simp only [dedupAux, if_pos hs, ih, List.mem_cons]
      constructor
      · rintro ⟨hx, hnx⟩; exact ⟨Or.inr hx, hnx⟩
      · rintro ⟨hx | hx, hnx⟩
        · exact absurd (hx ▸ hs) hnx
        · exact ⟨hx, hnx⟩
    · simp only [dedupAux, if_neg hs, List.mem_cons, ih]
      constructor
      · rintro (rfl | ⟨hx, hnx⟩)
        · exact ⟨Or.inl rfl, hs⟩
        · exact ⟨Or.inr hx, fun hc => hnx (Or.inr hc)⟩
      · rintro ⟨rfl | hx, hnx⟩
        · exact Or.inl rfl
        · by_cases hxs : x = s
          · exact Or.inl hxs
          · exact Or.inr ⟨hx, by simp [hxs, hnx]⟩

theorem nodup_dedupAux : ∀ (l seen : List String), (dedupAux seen l).Nodup := by
  intro l
  induction l with
  | nil => intro seen; simp [dedupAux]
  | cons s rest ih =>
    intro seen
    by_cases hs : s ∈ seen
    · simpa [dedupAux, hs] using ih seen
    · simp only [dedupAux, if_neg hs, List.nodup_cons]
      refine ⟨fun hc => ?_, ih (s :: seen)⟩
      exact (mem_dedupAux.mp hc).2 (List.mem_cons_self s seen)

theorem sublist_dedupAux : ∀ (l seen : List String), (dedupAux seen l).Sublist l := by
  intro l
  induction l with
  | nil => intro seen; simp [dedupAux]
  | cons s rest ih =>
    intro seen
    by_cases hs : s ∈ seen
    · simpa [dedupAux, hs] using (ih seen).cons s
    · simpa [dedupAux, hs] using (ih (s :: seen)).cons₂ s

theorem parseSkus_none_dedup (skuText : String) :
    parseSkus skuText none true = dedupAux [] (tokenize skuText) := by
  by_cases h : skuText = ""
  · subst h; rfl
  · simp [parseSkus, h]

/-- C2 counterexample: the three raw identifiers BE03678976, 03678976 and
3678976 (with surrounding spaces) do not merge to the single code 3678976;
parse_skus performs no normalization beyond whitespace splitting, so all
three survive as distinct codes. -/
theorem C2_counterexample :
    parseSkus "BE03678976\n03678976\n 3678976 " none true =
      ["BE03678976", "03678976", "3678976"] ∧
    parseSkus "BE03678976\n03678976\n 3678976 " none true ≠ ["3678976"] := by
  constructor
  · decide
  · decide

/-- C2 amended: merging the user-supplied raw identifier tokens deduplicates
by exact token value after whitespace splitting (no stripping of non-digit
characters or leading zeros), preserving first-seen order: the result is a
duplicate-free sublist of the token stream containing exactly its values. -/
theorem C2_dedup_exact_first_seen (skuText : String) :
    (parseSkus skuText none true).Nodup ∧
    (parseSkus skuText none true).Sublist (tokenize skuText) ∧
    (∀ s, s ∈ parseSkus skuText none true ↔ s ∈ tokenize skuText) := by
  rw [parseSkus_none_dedup]
  refine ⟨nodup_dedupAux _ _, sublist_dedupAux _ _, fun s => ?_⟩
  rw [mem_dedupAux]
  simp

/-- C10: if the uploaded Excel fails to read, or lacks a sku column after
lower-casing the headers, parse_skus returns the empty list, discarding any
textarea SKUs supplied in the same submission. -/
theorem C10_bad_excel_discards_all (skuText : String) (dedupOn : Bool) :
    parseSkus skuText (some .readFailed) dedupOn = [] ∧
    (∀ cols skuCells, "sku" ∉ cols.map lowerStr →
      parseSkus skuText (some (.table cols skuCells)) dedupOn = []) := by
  refine ⟨rfl, fun cols skuCells h => ?_⟩
  simp [parseSkus, h]

/-- C10 witness: a concrete submission with valid textarea SKUs and an Excel
whose only column is ref still yields no SKUs at all. -/
theorem C10_witness :
    parseSkus "4811337 4811352" (some (.table ["Ref"] ["9999999"])) true = [] :=
  (C10_bad_excel_discards_all "4811337 4811352" true).2 ["Ref"] ["9999999"] (by decide)

/- ------------------ photo rows and candidate ranking ------------------ -/

/-- One row of the Photos sheet after _extract_photos: the Product ID and URL
cells (none models NaN), the Type label (none models a non-string cell), and
the numeric Photo ID (none models a missing or non-numeric cell). -/
structure PhotoRow where
  productId : Option Int
  url : Option String
  typeLabel : Option String
  photoId : Option Int

/-- The TYPE_RANK table of app.py, looked up on the exact label. -/
def typeRank (s : String) : Nat :=
  if s = "photo du produit" ∨ s = "productfoto" then 1
  else if s = "photo de l\x27emballage" ∨ s = "verpakkingsfoto" then 2
  else if s = "photo promotionnelle" ∨ s = "sfeerbeeld" then 3
  else 99

/-- _rank_type: non-strings get 99, otherwise TYPE_RANK of the stripped
lower-cased label, with default 99 for unknown labels. -/
def rankType (t : Option String) : Nat :=
  match t with
  | none => 99
  | some s => typeRank (lowerStr (trimStr s))

/-- The rank_photoid column: the numeric Photo ID, with the sentinel 10^9
filled in where the value is missing. -/
def rankPhotoId (p : Option Int) : Int := p.getD (10 ^ 9)

/-- The key of photos.sort_values: Product ID ascending with NaN placed last
(the first two components), then rank_type, then rank_photoid. -/
def sortKey (r : PhotoRow) : Nat × Int × Nat × Int :=
  match r.productId with
  | none => (1, 0, rankType r.typeLabel, rankPhotoId r.photoId)
  | some i => (0, i, rankType r.typeLabel, rankPhotoId r.photoId)

/-- Lexicographic order on sort keys. -/
def keyLe (k l : Nat × Int × Nat × Int) : Prop :=
  k.1 < l.1 ∨ (k.1 = l.1 ∧ (k.2.1 < l.2.1 ∨ (k.2.1 = l.2.1 ∧
    (k.2.2.1 < l.2.2.1 ∨ (k.2.2.1 = l.2.2.1 ∧ k.2.2.2 ≤ l.2.2.2)))))

instance : DecidableRel keyLe := fun k l => by unfold keyLe; infer_instance

theorem keyLe_refl (k : Nat × Int × Nat × Int) : keyLe k k := by unfold keyLe; omega

/-- Row comparison used by the ranking sort. -/
def rowLe (a b : PhotoRow) : Prop := keyLe (sortKey a) (sortKey b)

instance : DecidableRel rowLe :=
  fun a b => (inferInstance : Decidable (keyLe (sortKey a) (sortKey b)))

instance : IsTotal PhotoRow rowLe :=
  ⟨fun a b => by unfold rowLe keyLe; omega⟩

instance : IsTrans PhotoRow rowLe :=
  ⟨fun a b c hab hbc => by unfold rowLe keyLe at hab hbc ⊢; omega⟩

/-- The ranking sort of build_zip_and_missing.  sort_values on several
columns runs numpy lexsort, a stable sort; insertion sort with a reflexive
comparison is the canonical stable sort, so the output list is the same. -/
def sortRows (rows : List PhotoRow) : List PhotoRow := List.insertionSort rowLe rows

theorem filter_orderedInsert_eq (x : PhotoRow) (l : List PhotoRow) :
    (l.orderedInsert rowLe x).filter (fun r => decide (sortKey r = sortKey x)) =
      x :: l.filter (fun r => decide (sortKey r = sortKey x)) := by
  induction l with
  | nil => simp [List.orderedInsert]
  | cons b t ih =>
    by_cases h : rowLe x b
    · simp [List.orderedInsert, h]
    · have hb : sortKey b ≠ sortKey x := by
        intro he
        exact h (show keyLe (sortKey x) (sortKey b) from he ▸ keyLe_refl _)
      simp [List.orderedInsert, h, hb, ih]

theorem filter_orderedInsert_ne (x : PhotoRow) (l : List PhotoRow)
    (k : Nat × Int × Nat × Int) (hk : sortKey x ≠ k) :
    (l.orderedInsert rowLe x).filter (fun r => decide (sortKey r = k)) =
      l.filter (fun r => decide (sortKey r = k)) := by
  induction l with
  | nil => simp [List.orderedInsert, hk]
  | cons b t ih =>
    by_cases h : rowLe x b
    · simp [List.orderedInsert, h, hk]
    · by_cases hb : sortKey b = k
      · simp [List.orderedInsert, h, hb, ih]
      · simp [List.orderedInsert, h, hb, ih]

theorem sortRows_filter_key (rows : List PhotoRow) (k : Nat × Int × Nat × Int) :
    (sortRows rows).filter (fun r => decide (sortKey r = k)) =
      rows.filter (fun r => decide (sortKey r = k)) := by
  induction rows with
  | nil => rfl
  | cons a t ih =>
    show ((List.insertionSort rowLe t).orderedInsert rowLe a).filter _ = _
    rcases eq_or_ne (sortKey a) k with rfl | hne
    · rw [filter_orderedInsert_eq]
      simp only [List.filter_cons, decide_eq_true_eq, if_true, eq_self_iff_true]
      exact congrArg _ ih
    · rw [filter_orderedInsert_ne _ _ _ hne]
      simp only [List.filter_cons, decide_eq_true_eq]
      rw [if_neg hne]
      exact ih

/-- C3: candidate ranking is a stable sort on the ascending key built from
the product id, the type rank and the sequence rank: the output is sorted by
that key, and the rows carrying any fixed key value appear in the output in
exactly the input (spreadsheet) order. -/
theorem C3_ranking_stable_sort (rows : List PhotoRow) :
    List.Sorted rowLe (sortRows rows) ∧
    ∀ k, (sortRows rows).filter (fun r => decide (sortKey r = k)) =
      rows.filter (fun r => decide (sortKey r = k)) :=
  ⟨List.sorted_insertionSort rowLe rows, fun k => sortRows_filter_key rows k⟩

/- -------------------- the photo pipeline of app.py -------------------- -/

/-- External collaborators of build_zip_and_missing, over an abstract image
type: requests.get with the status and emptiness checks of _download_image
(none is any network failure), PIL decoding with Image.open plus load (none
is a decode failure), _to_1000_canvas (whose pixel content depends on the
PIL resampler), _jpeg_bytes, and the hashlib.md5 hex digest of _hash_bytes. -/
structure Env (Img : Type) where
  fetch : String → Option (List Nat)
  decode : List Nat → Option Img
  canvas : Img → Img
  jpeg : Img → List Nat
  md5 : List Nat → String

/-- _download_image: fetch the bytes, then decode them; any failure at either
point yields none. -/
def downloadImage {Img : Type} (env : Env Img) (url : String) : Option Img :=
  match env.fetch url with
  | none => none
  | some bytes => env.decode bytes

/-- One row of the missing-images report (the dict appended to missing_rows). -/
structure MissingRow where
  productId : Option Int
  cnk : Option String
  url : String
  reason : String
deriving DecidableEq

/-- An accepted archive image before filename rendering: the canonical code,
the value of the per-code counter, and the encoded bytes; the zip stores the
bytes under the rendered filename. -/
structure ZipEntry where
  cnk : String
  n : Nat
  data : List Nat
deriving DecidableEq

/-- The loop state of build_zip_and_missing. -/
structure RunState where
  hashes : String → List String
  counts : String → Nat
  entries : List ZipEntry
  missing : List MissingRow
  attempted : Nat
  saved : Nat

def initState : RunState :=
  { hashes := fun _ => [], counts := fun _ => 0, entries := [], missing := [],
    attempted := 0, saved := 0 }

/-- One row of the Products sheet: the ID cell (none when int() raises) and
the CNK cell rendered and stripped. -/
structure ProductRow where
  idCell : Option Int
  cnk : String

/-- Lines 499 to 505 of app.py: the Product ID to CNK map; rows whose ID cell
cannot be parsed are skipped, and later rows overwrite earlier ones. -/
def buildId2Cnk (l : List ProductRow) : Int → Option String :=
  l.foldl
    (fun m r =>
      match r.idCell with
      | none => m
      | some i => fun j => if j = i then some r.cnk else m j)
    (fun _ => none)

/-- url = str(row URL).strip(); a NaN cell renders as the string nan. -/
def urlOf (r : PhotoRow) : String :=
  match r.url with
  | none => "nan"
  | some u => trimStr u

/-- The emptiness test of the loop: not url or url.lower() in (nan, none). -/
def urlFalsy (u : String) : Bool :=
  u == "" || lowerStr u == "nan" || lowerStr u == "none"

/-- cnk = id2cnk.get(pid): a missing or unparsed Product ID looks up to
nothing. -/
def cnkOf (id2cnk : Int → Option String) (r : PhotoRow) : Option String :=
  r.productId.bind id2cnk

/-- The deduplication tail of the loop body: hash the encoded canvas, skip
when the hash is already present for this code, otherwise record hash,
counter, and archive entry. -/
def dedupStep {Img : Type} (env : Env Img) (s : RunState) (c : String) (img : Img) :
    RunState :=
  let jb := env.jpeg (env.canvas img)
  let h := env.md5 jb
  if h ∈ s.hashes c then
    { s with attempted := s.attempted + 1 }
  else
    { hashes := fun c2 => if c2 = c then h :: s.hashes c2 else s.hashes c2,
      counts := fun c2 => if c2 = c then s.counts c2 + 1 else s.counts c2,
      entries := s.entries ++ [⟨c, s.counts c + 1, jb⟩],
      missing := s.missing,
      attempted := s.attempted + 1,
      saved := s.saved + 1 }

/-- The body of the row loop of build_zip_and_missing (progress-bar calls
omitted): missing-code, empty-url and download-failure rows produce report
rows; fetched rows go through the dedup tail. -/
def step {Img : Type} (env : Env Img) (id2cnk : Int → Option String)
    (s : RunState) (r : PhotoRow) : RunState :=
  let url := urlOf r
  match cnkOf id2cnk r with
  | none =>
    { s with attempted := s.attempted + 1,
             missing := s.missing ++ [⟨r.productId, none, url, "No CNK for Product ID"⟩] }
  | some c =>
    if c = "" then
      { s with attempted := s.attempted + 1,
               missing := s.missing ++ [⟨r.productId, none, url, "No CNK for Product ID"⟩] }
    else if urlFalsy url then
      { s with attempted := s.attempted + 1,
               missing := s.missing ++ [⟨r.productId, some c, url, "Empty URL"⟩] }
    else
      match downloadImage env url with
      | none =>
        { s with attempted := s.attempted + 1,
                 missing := s.missing ++ [⟨r.productId, some c, url, "Download failed"⟩] }
      | some img => dedupStep env s c img

/-- build_zip_and_missing after extraction: drop the rows whose URL cell is
NaN (photos.dropna on the URL column), rank the survivors with the stable
sort, then run the loop. -/
def buildZipAndMissing {Img : Type} (env : Env Img) (id2cnk : Int → Option String)
    (rows : List PhotoRow) : RunState :=
  (sortRows (rows.filter (fun r => r.url.isSome))).foldl (step env id2cnk) initState

theorem step_eq_dedupStep {Img : Type} (env : Env Img) (i2c : Int → Option String)
    (s : RunState) (r : PhotoRow) (c : String) (img : Img)
    (hc : cnkOf i2c r = some c) (hne : c ≠ "") (hu : urlFalsy (urlOf r) = false)
    (hd : downloadImage env (urlOf r) = some img) :
    step env i2c s r = dedupStep env s c img := by
  simp [step, hc, hne, hu, hd]

theorem step_attempted {Img : Type} (env : Env Img) (i2c : Int → Option String)
    (s : RunState) (r : PhotoRow) :
    (step env i2c s r).attempted = s.attempted + 1 := by
  unfold step
  cases hcn : cnkOf i2c r with
  | none => rfl
  | some c =>
    by_cases hc : c = ""
    · simp [hc]
    · simp only [if_neg hc]
      by_cases hu : urlFalsy (urlOf r) = true
      · simp [hu]
      · simp only [hu, if_false]
        cases hd : downloadImage env (urlOf r) with
        | none => rfl
        | some img =>
          unfold dedupStep
          by_cases hm : env.md5 (env.jpeg (env.canvas img)) ∈ s.hashes c
          · simp [hm]
          · simp [hm]

theorem foldl_attempted {Img : Type} (env : Env Img) (i2c : Int → Option String) :
    ∀ (l : List PhotoRow) (s : RunState),
      (l.foldl (step env i2c) s).attempted = s.attempted + l.length := by
  intro l
  induction l with
  | nil => intro s; simp
  | cons r t ih =>
    intro s
    simp only [List.foldl_cons, ih, step_attempted, List.length_cons]
    omega

theorem step_entries_nonempty_cnk {Img : Type} (env : Env Img)
    (i2c : Int → Option String) (s : RunState) (r : PhotoRow)
    (h : ∀ e ∈ s.entries, e.cnk ≠ "") :
    ∀ e ∈ (step env i2c s r).entries, e.cnk ≠ "" := by
  unfold step
  cases hcn : cnkOf i2c r with
  | none => simpa using h
  | some c =>
    by_cases hc : c = ""
    · simpa [hc] using h
    · simp only [if_neg hc]
      by_cases hu : urlFalsy (urlOf r) = true
      · simpa [hu] using h
      · simp only [hu, if_false]
        cases hd : downloadImage env (urlOf r) with
        | none => simpa using h
        | some img =>
          unfold dedupStep
          by_cases hm : env.md5 (env.jpeg (env.canvas img)) ∈ s.hashes c
          · simpa [hm] using h
          · simp only [if_neg hm]
            intro e he
            rcases List.mem_append.mp he with h1 | h2
            · exact h e h1
            · have : e = ⟨c, s.counts c + 1, env.jpeg (env.canvas img)⟩ := by
                simpa using h2
              rw [this]
              exact hc

theorem foldl_entries_nonempty_cnk {Img : Type} (env : Env Img)
    (i2c : Int → Option String) :
    ∀ (l : List PhotoRow) (s : RunState), (∀ e ∈ s.entries, e.cnk ≠ "") →
      ∀ e ∈ (l.foldl (step env i2c) s).entries, e.cnk ≠ "" := by
  intro l
  induction l with
  | nil => intro s hs; exact hs
  | cons r t ih =>
    intro s hs
    exact ih _ (step_entries_nonempty_cnk env i2c s r hs)

/- ------- spec-modelled perceptual fingerprint (absent from src) ------- -/

/-- Modelled from the spec: the similarity fingerprint of the Perceptual
Deduplicator, a 64-bit gradient-sign hash comparing each pixel of an 8 by 8
down-sampled grayscale grid to its right neighbour.  No such computation
exists in src/app.py; the down-sampling and grayscale conversion are
represented by the sampled grid itself. -/
def specFingerprint (g : Nat → Nat → Nat) : List Bool :=
  (List.range 8).flatMap (fun r => (List.range 8).map (fun c => decide (g r c < g r (c + 1))))

/-- Modelled from the spec: Hamming distance between fingerprints. -/
def hammingDist (a b : List Bool) : Nat :=
  ((a.zip b).filter (fun p => p.1 != p.2)).length

/- ------------------------ concrete demo runs ------------------------ -/

/-- Flat grayscale canvas used by the demo environment. -/
def demoG1 : Nat → Nat → Nat := fun _ _ => 0

/-- The same canvas with one brighter pixel, which flips exactly one
gradient sign of the fingerprint. -/
def demoG2 : Nat → Nat → Nat := fun r c => if r = 0 ∧ c = 1 then 1 else 0

/-- A concrete environment: two URLs serve bytes decoding to the two nearly
identical images, u3 serves bytes that fail to decode, the processed image is
encoded by sampling a 9 by 9 window (the canvas step is the identity here:
only the encoded bytes matter to the loop), and the hash renders the bytes
injectively, as the real md5 is collision-free on these inputs. -/
def demoEnv : Env (Nat → Nat → Nat) :=
  { fetch := fun url =>
      if url = "u1" then some [1]
      else if url = "u2" then some [2]
      else if url = "u3" then some [3]
      else none,
    decode := fun b =>
      if b = [1] then some demoG1 else if b = [2] then some demoG2 else none,
    canvas := fun g => g,
    jpeg := fun g => (List.range 9).flatMap (fun r => (List.range 9).map (fun c => g r c)),
    md5 := fun b => ⟨b.map (fun k => Char.ofNat (48 + k % 10))⟩ }

def demoId2Cnk : Int → Option String := buildId2Cnk [⟨some 10, "1234567"⟩]

/-- Ranked candidate (type_rank 1, seq 1) of product 10. -/
def demoRow1 : PhotoRow := ⟨some 10, some "u1", some "productfoto", some 1⟩

/-- Candidate (type_rank 2, seq 1) of product 10, visually near-identical. -/
def demoRow2 : PhotoRow := ⟨some 10, some "u2", some "verpakkingsfoto", some 1⟩

/-- Candidate of product 10 whose fetched bytes cannot be decoded. -/
def demoRow3 : PhotoRow := ⟨some 10, some "u3", some "productfoto", some 2⟩

/-- A row with a NaN URL cell and a product id that maps to no CNK. -/
def demoRowOrphan : PhotoRow := ⟨some 77, none, some "productfoto", some 1⟩

/-- A row with a NaN URL cell whose product id does have a CNK. -/
def demoRowNanUrl : PhotoRow := ⟨some 10, none, some "productfoto", some 1⟩

/- --------------------------- claims C1, C8 --------------------------- -/

/-- C1 counterexample: two successfully fetched candidates of product code
1234567 whose modelled perceptual fingerprints lie at Hamming distance 1
(well within the threshold 3) are BOTH archived, because the loop
deduplicates only by exact content hash: the run archives two images for the
code, not exactly one. -/
theorem C1_counterexample :
    (buildZipAndMissing demoEnv demoId2Cnk [demoRow1, demoRow2]).entries.length = 2 ∧
    ((buildZipAndMissing demoEnv demoId2Cnk [demoRow1, demoRow2]).entries.map
      (fun e => e.cnk)) = ["1234567", "1234567"] ∧
    hammingDist (specFingerprint demoG1) (specFingerprint demoG2) = 1 := by
  decide

/-- C1 amended: a processed candidate that reaches the dedup stage is
rejected (archive and accepted-hash set left unchanged) exactly when its md5
content hash is already in the accepted-hash set of its product code; no
perceptual fingerprint takes part in the decision, so near-identical but
byte-distinct candidates are all archived. -/
theorem C1_reject_iff_exact_hash {Img : Type} (env : Env Img)
    (i2c : Int → Option String) (s : RunState) (r : PhotoRow) (c : String) (img : Img)
    (hc : cnkOf i2c r = some c) (hne : c ≠ "") (hu : urlFalsy (urlOf r) = false)
    (hd : downloadImage env (urlOf r) = some img) :
    ((step env i2c s r).entries = s.entries ↔
      env.md5 (env.jpeg (env.canvas img)) ∈ s.hashes c) ∧
    ((step env i2c s r).hashes c = s.hashes c ↔
      env.md5 (env.jpeg (env.canvas img)) ∈ s.hashes c) := by
  rw [step_eq_dedupStep env i2c s r c img hc hne hu hd]
  unfold dedupStep
  by_cases hm : env.md5 (env.jpeg (env.canvas img)) ∈ s.hashes c
  · simp [hm]
  · simp only [if_neg hm]
    constructor
    · constructor
      · intro h
        have := congrArg List.length h
        simp at this
      · intro h; exact absurd h hm
    · constructor
      · intro h
        simp only [if_pos rfl] at h
        have := congrArg List.length h
        simp at this
      · intro h; exact absurd h hm

/-- C1 witness: at the concrete ranked candidate of product 10, with the
empty initial state, the candidate is not rejected and indeed its hash is
not yet in the accepted set. -/
theorem C1_witness :
    ((step demoEnv demoId2Cnk initState demoRow1).entries = initState.entries ↔
      demoEnv.md5 (demoEnv.jpeg (demoEnv.canvas demoG1)) ∈ initState.hashes "1234567") :=
  (C1_reject_iff_exact_hash demoEnv demoId2Cnk initState demoRow1 "1234567" demoG1
    (by decide) (by decide) (by decide) rfl).1

/-- C8: deduplication is idempotent: a candidate with fresh encoded bytes is
archived once, and feeding the same row again leaves the archive, the
accepted-hash set and the saved counter unchanged. -/
theorem C8_dedup_idempotent {Img : Type} (env : Env Img)
    (i2c : Int → Option String) (s : RunState) (r : PhotoRow) (c : String) (img : Img)
    (hc : cnkOf i2c r = some c) (hne : c ≠ "") (hu : urlFalsy (urlOf r) = false)
    (hd : downloadImage env (urlOf r) = some img)
    (hfresh : env.md5 (env.jpeg (env.canvas img)) ∉ s.hashes c) :
    (step env i2c s r).entries =
      s.entries ++ [⟨c, s.counts c + 1, env.jpeg (env.canvas img)⟩] ∧
    (step env i2c (step env i2c s r) r).entries = (step env i2c s r).entries ∧
    (step env i2c (step env i2c s r) r).hashes c = (step env i2c s r).hashes c ∧
    (step env i2c (step env i2c s r) r).saved = (step env i2c s r).saved := by
  have hstep : ∀ t : RunState, step env i2c t r = dedupStep env t c img :=
    fun t => step_eq_dedupStep env i2c t r c img hc hne hu hd
  have h1 : step env i2c s r =
      { hashes := fun c2 => if c2 = c then
          env.md5 (env.jpeg (env.canvas img)) :: s.hashes c2 else s.hashes c2,
        counts := fun c2 => if c2 = c then s.counts c2 + 1 else s.counts c2,
        entries := s.entries ++ [⟨c, s.counts c + 1, env.jpeg (env.canvas img)⟩],
        missing := s.missing,
        attempted := s.attempted + 1,
        saved := s.saved + 1 } := by
    rw [hstep s]; unfold dedupStep; rw [if_neg hfresh]
  have hmem : env.md5 (env.jpeg (env.canvas img)) ∈ (step env i2c s r).hashes c := by
    rw [h1]; simp
  have h2 : step env i2c (step env i2c s r) r =
      { step env i2c s r with attempted := (step env i2c s r).attempted + 1 } := by
    rw [hstep (step env i2c s r)]; unfold dedupStep; rw [if_pos hmem]
  refine ⟨by rw [h1], by rw [h2], by rw [h2], by rw [h2]⟩

/-- C8 witness: the concrete first candidate of product 1234567, fed twice
from the empty state, produces exactly one archive entry. -/
theorem C8_witness :
    (step demoEnv demoId2Cnk initState demoRow1).entries =
      [⟨"1234567", 1, demoEnv.jpeg (demoEnv.canvas demoG1)⟩] ∧
    (step demoEnv demoId2Cnk (step demoEnv demoId2Cnk initState demoRow1) demoRow1).entries =
      (step demoEnv demoId2Cnk initState demoRow1).entries := by
  have h := C8_dedup_idempotent demoEnv demoId2Cnk initState demoRow1 "1234567" demoG1
    (by decide) (by decide) (by decide) rfl (by decide)
  exact ⟨h.1, h.2.1⟩

/- --------------------------- claims C4, C5, C6 --------------------------- -/

/-- C4 counterexample: a candidate whose fetched bytes fail to decode is
recorded with reason Download failed, not Processing failed; no entry with
reason Processing failed exists anywhere in the run. -/
theorem C4_counterexample :
    ((buildZipAndMissing demoEnv demoId2Cnk [demoRow3]).missing.map
      (fun m => m.reason)) = ["Download failed"] ∧
    "Processing failed" ∉
      ((buildZipAndMissing demoEnv demoId2Cnk [demoRow3]).missing.map
        (fun m => m.reason)) := by
  decide

/-- C4 amended: a candidate whose fetched bytes cannot be decoded yields a
non-fatal missing entry with reason Download failed (decode failures are
folded into the fetch-failure reason), nothing is archived for it, and the
loop never aborts: every ranked surviving row is attempted. -/
theorem C4_decode_failure_nonfatal {Img : Type} (env : Env Img)
    (i2c : Int → Option String) :
    (∀ (s : RunState) (r : PhotoRow) (c : String) (bytes : List Nat),
      cnkOf i2c r = some c → c ≠ "" → urlFalsy (urlOf r) = false →
      env.fetch (urlOf r) = some bytes → env.decode bytes = none →
      (step env i2c s r).missing =
        s.missing ++ [⟨r.productId, some c, urlOf r, "Download failed"⟩] ∧
      (step env i2c s r).entries = s.entries) ∧
    (∀ rows : List PhotoRow,
      (buildZipAndMissing env i2c rows).attempted =
        (sortRows (rows.filter (fun r => r.url.isSome))).length) := by
  constructor
  · intro s r c bytes hc hne hu hf hdec
    have hd : downloadImage env (urlOf r) = none := by
      unfold downloadImage; rw [hf]; exact hdec
    constructor
    · simp [step, hc, hne, hu, hd]
    · simp [step, hc, hne, hu, hd]
  · intro rows
    unfold buildZipAndMissing
    rw [foldl_attempted]
    simp [initState]

/-- C4 witness: the concrete undecodable candidate is reported as Download
failed and archives nothing, and the one-row run attempts exactly one row. -/
theorem C4_witness :
    (step demoEnv demoId2Cnk initState demoRow3).missing =
      [⟨some 10, some "1234567", "u3", "Download failed"⟩] ∧
    (buildZipAndMissing demoEnv demoId2Cnk [demoRow3]).attempted = 1 := by
  have h := C4_decode_failure_nonfatal demoEnv demoId2Cnk
  refine ⟨?_, ?_⟩
  · have := (h.1 initState demoRow3 "1234567" [3] (by decide) (by decide)
      (by decide) rfl rfl).1
    simpa [initState] using this
  · have := h.2 [demoRow3]
    simpa using this

/-- C5 counterexample: a photo row whose product id has no mapping is
dropped with no missing entry at all when its URL cell is also NaN: the
dropna filter removes it before the lookup, so it is silently dropped. -/
theorem C5_counterexample :
    (buildZipAndMissing demoEnv demoId2Cnk [demoRowOrphan]).missing = [] ∧
    (buildZipAndMissing demoEnv demoId2Cnk [demoRowOrphan]).entries = [] := by
  decide

/-- C5 amended: every archived image carries a non-empty canonical code, and
every row that reaches the loop (URL cell not NaN) whose product id yields
no canonical code is routed to a missing entry with reason No CNK for
Product ID and archives nothing. -/
theorem C5_nonempty_code_and_lookup_missing {Img : Type} (env : Env Img)
    (i2c : Int → Option String) :
    (∀ rows : List PhotoRow,
      ∀ e ∈ (buildZipAndMissing env i2c rows).entries, e.cnk ≠ "") ∧
    (∀ (s : RunState) (r : PhotoRow),
      (cnkOf i2c r = none ∨ cnkOf i2c r = some "") →
      (step env i2c s r).missing =
        s.missing ++ [⟨r.productId, none, urlOf r, "No CNK for Product ID"⟩] ∧
      (step env i2c s r).entries = s.entries) := by
  constructor
  · intro rows
    exact foldl_entries_nonempty_cnk env i2c _ initState (by simp [initState])
  · intro s r hc
    rcases hc with hc | hc
    · constructor <;> simp [step, hc]
    · constructor <;> simp [step, hc]

/-- C5 witness: a surviving row of a product with no CNK mapping is recorded
with reason No CNK for Product ID, and the demo run archives only non-empty
codes. -/
theorem C5_witness :
    (step demoEnv demoId2Cnk initState ⟨some 77, some "u1", some "productfoto", some 1⟩).missing =
      [⟨some 77, none, "u1", "No CNK for Product ID"⟩] ∧
    ∀ e ∈ (buildZipAndMissing demoEnv demoId2Cnk [demoRow1, demoRow2]).entries,
      e.cnk ≠ "" := by
  have h := C5_nonempty_code_and_lookup_missing demoEnv demoId2Cnk
  refine ⟨?_, h.1 [demoRow1, demoRow2]⟩
  have := (h.2 initState ⟨some 77, some "u1", some "productfoto", some 1⟩
    (Or.inl (by decide))).1
  simpa [initState] using this

/-- C6 counterexample: a photo row with an empty (NaN) URL cell, for a
product that does have a canonical code, disappears from the run entirely:
it is excluded before ranking and contributes nothing to the missing-images
report. -/
theorem C6_counterexample :
    (buildZipAndMissing demoEnv demoId2Cnk [demoRowNanUrl]).missing = [] ∧
    (buildZipAndMissing demoEnv demoId2Cnk [demoRowNanUrl]).entries = [] ∧
    (buildZipAndMissing demoEnv demoId2Cnk [demoRowNanUrl]).attempted = 0 := by
  decide

/-- C6 amended: rows whose URL cell is NaN are removed by the dropna filter
before ranking and leave no trace in the run, while rows whose URL is an
empty or nan-like string survive ranking and are recorded in the report with
reason Empty URL when their product has a canonical code. -/
theorem C6_url_handling {Img : Type} (env : Env Img) (i2c : Int → Option String) :
    (∀ rows : List PhotoRow,
      buildZipAndMissing env i2c rows =
        buildZipAndMissing env i2c (rows.filter (fun r => r.url.isSome))) ∧
    (∀ (s : RunState) (r : PhotoRow) (u : String) (c : String),
      r.url = some u → urlFalsy (trimStr u) = true →
      cnkOf i2c r = some c → c ≠ "" →
      (step env i2c s r).missing =
        s.missing ++ [⟨r.productId, some c, trimStr u, "Empty URL"⟩] ∧
      (step env i2c s r).entries = s.entries) := by
  constructor
  · intro rows
    unfold buildZipAndMissing
    rw [List.filter_filter]
    simp
  · intro s r u c hru hu hc hne
    have hurl : urlOf r = trimStr u := by unfold urlOf; rw [hru]
    constructor
    · simp [step, hc, hne, hurl, hu]
    · simp [step, hc, hne, hurl, hu]

/-- C6 witness: a surviving row whose URL string is empty is reported with
reason Empty URL, and removing NaN-URL rows leaves the demo run unchanged. -/
theorem C6_witness :
    (step demoEnv demoId2Cnk initState ⟨some 10, some " ", some "productfoto", some 1⟩).missing =
      [⟨some 10, some "1234567", "", "Empty URL"⟩] ∧
    buildZipAndMissing demoEnv demoId2Cnk [demoRowNanUrl] =
      buildZipAndMissing demoEnv demoId2Cnk
        ([demoRowNanUrl].filter (fun r => r.url.isSome)) := by
  have h := C6_url_handling demoEnv demoId2Cnk
  refine ⟨?_, h.1 [demoRowNanUrl]⟩
  have := (h.2 initState ⟨some 10, some " ", some "productfoto", some 1⟩ " " "1234567"
    rfl (by decide) (by decide) (by decide)).1
  simpa [initState] using this

/- ---------------------- _to_1000_canvas (pixels) ---------------------- -/

/-- An RGB raster image: width, height, and a pixel function. -/
structure PixImage where
  w : Nat
  h : Nat
  px : Nat → Nat → Nat × Nat × Nat

/-- Opaque white, the canvas background and the rectangle fill. -/
def white : Nat × Nat × Nat := (255, 255, 255)

/-- _to_1000_canvas at pixel level: the decoded image (already converted to
RGB in this model) is fitted by ImageOps.contain, an external resampler
passed as a parameter, pasted centred on a white 1000 by 1000 canvas, and
then draw.rectangle fills the square from (940, 940) to (999, 999), both
corners inclusive as in PIL, with white.  The rectangle is drawn after the
paste, so it has the highest priority in the pixel function. -/
def to1000Canvas (contain : PixImage → PixImage) (img : PixImage) : PixImage :=
  let fitted := contain img
  let x := (1000 - fitted.w) / 2
  let y := (1000 - fitted.h) / 2
  { w := 1000, h := 1000,
    px := fun a b =>
      if 940 ≤ a ∧ a ≤ 999 ∧ 940 ≤ b ∧ b ≤ 999 then white
      else if x ≤ a ∧ a < x + fitted.w ∧ y ≤ b ∧ b < y + fitted.h then
        fitted.px (a - x) (b - y)
      else white }

/-- C9: the bottom-right 60 by 60 pixel block of the normalized canvas is
entirely opaque white, whatever the decoded image is and however the
resampler fits it: the white rectangle drawn after the paste overwrites any
image content reaching that corner. -/
theorem C9_corner_white (contain : PixImage → PixImage) (img : PixImage)
    (a b : Nat) (ha1 : 940 ≤ a) (ha2 : a ≤ 999) (hb1 : 940 ≤ b) (hb2 : b ≤ 999) :
    (to1000Canvas contain img).px a b = white := by
  simp [to1000Canvas, ha1, ha2, hb1, hb2]

/-- C9 witness: the corner region pixel (999, 940) of an all-black image
fitted by an identity resampler is white on the output canvas. -/
theorem C9_witness :
    (to1000Canvas (fun i => i) ⟨1000, 1000, fun _ _ => (0, 0, 0)⟩).px 999 940 = white :=
  C9_corner_white (fun i => i) ⟨1000, 1000, fun _ _ => (0, 0, 0)⟩ 999 940
    (by decide) (by decide) (by decide) (by decide)

/- ------------------------- archive filenames ------------------------- -/

/-- Decimal digit characters, as the f-string renders counter values. -/
def digitChar (n : Nat) : Char :=
  if n = 0 then '0' else if n = 1 then '1' else if n = 2 then '2'
  else if n = 3 then '3' else if n = 4 then '4' else if n = 5 then '5'
  else if n = 6 then '6' else if n = 7 then '7' else if n = 8 then '8'
  else if n = 9 then '9' else '*'

/-- Decimal rendering of a counter value. -/
def natChars (n : Nat) : List Char :=
  if h : n < 10 then [digitChar n]
  else natChars (n / 10) ++ [digitChar (n % 10)]
decreasing_by exact Nat.div_lt_self (by omega) (by omega)

theorem digitChar_fin_ne_dash : ∀ a : Fin 10, digitChar a.val ≠ '-' := by decide

theorem digitChar_fin_inj : ∀ a b : Fin 10, digitChar a.val = digitChar b.val → a = b := by
  decide

theorem natChars_ne_nil (n : Nat) : natChars n ≠ [] := by
  rw [natChars]
  split
  · simp
  · simp

theorem mem_natChars_ne_dash : ∀ (n : Nat), ∀ c ∈ natChars n, c ≠ '-' := by
  intro n
  induction n using Nat.strong_induction_on with
  | _ n ih =>
    rw [natChars]
    split
    · intro c hc
      rename_i h10
      have : c = digitChar n := by simpa using hc
      rw [this]
      exact digitChar_fin_ne_dash ⟨n, h10⟩
    · intro c hc
      rename_i h10
      rcases List.mem_append.mp hc with h1 | h2
      · exact ih (n / 10) (Nat.div_lt_self (by omega) (by omega)) c h1
      · have : c = digitChar (n % 10) := by simpa using h2
        rw [this]
        exact digitChar_fin_ne_dash ⟨n % 10, Nat.mod_lt _ (by omega)⟩

theorem natChars_eq (n : Nat) :
    natChars n =
      if h : n < 10 then [digitChar n] else natChars (n / 10) ++ [digitChar (n % 10)] := by
  rw [natChars]

theorem natChars_inj : ∀ m n : Nat, natChars m = natChars n → m = n := by
  intro m
  induction m using Nat.strong_induction_on with
  | _ m ih =>
    intro n h
    rw [natChars_eq m, natChars_eq n] at h
    by_cases hm : m < 10 <;> by_cases hn : n < 10
    · rw [dif_pos hm, dif_pos hn] at h
      have hd : digitChar m = digitChar n := by simpa using h
      have := digitChar_fin_inj ⟨m, hm⟩ ⟨n, hn⟩ hd
      simpa [Fin.mk.injEq] using this
    · rw [dif_pos hm, dif_neg hn] at h
      have hlen := congrArg List.length h
      simp only [List.length_cons, List.length_append, List.length_nil] at hlen
      have h0 : (natChars (n / 10)).length = 0 := by omega
      exact absurd (List.eq_nil_of_length_eq_zero h0) (natChars_ne_nil (n / 10))
    · rw [dif_neg hm, dif_pos hn] at h
      have hlen := congrArg List.length h
      simp only [List.length_cons, List.length_append, List.length_nil] at hlen
      have h0 : (natChars (m / 10)).length = 0 := by omega
      exact absurd (List.eq_nil_of_length_eq_zero h0) (natChars_ne_nil (m / 10))
    · rw [dif_neg hm, dif_neg hn] at h
      have hsplit := List.append_inj' h (by simp)
      have hdiv : m / 10 = n / 10 :=
        ih (m / 10) (Nat.div_lt_self (by omega) (by omega)) (n / 10) hsplit.1
      have hd : digitChar (m % 10) = digitChar (n % 10) := by
        have := hsplit.2
        simpa using this
      have hmod := digitChar_fin_inj ⟨m % 10, Nat.mod_lt _ (by omega)⟩
        ⟨n % 10, Nat.mod_lt _ (by omega)⟩ hd
      simp only [Fin.mk.injEq] at hmod
      omega

/-- Splitting a character list at the last dash: when the parts after the
dash contain no dash, both the prefixes and the suffixes agree. -/
theorem append_sep_inj : ∀ {x y u v : List Char},
    x ++ '-' :: u = y ++ '-' :: v → '-' ∉ u → '-' ∉ v → x = y ∧ u = v := by
  intro x
  induction x with
  | nil =>
    intro y u v h hu hv
    cases y with
    | nil => simpa using h
    | cons b y2 =>
      simp only [List.nil_append, List.cons_append, List.cons.injEq] at h
      exact absurd (h.2 ▸ List.mem_append_right y2 (List.mem_cons_self '-' v)) hu
  | cons a x2 ih =>
    intro y u v h hu hv
    cases y with
    | nil =>
      simp only [List.nil_append, List.cons_append, List.cons.injEq] at h
      exact absurd (h.2.symm ▸ List.mem_append_right x2 (List.mem_cons_self '-' u)) hv
    | cons b y2 =>
      simp only [List.cons_append, List.cons.injEq] at h
      obtain ⟨hx, huv⟩ := ih h.2 hu hv
      exact ⟨by rw [h.1, hx], huv⟩

/-- The filename BE0{cnk}-{lang}-h{n}.jpg on a (code, counter) pair. -/
def pairName (lang : String) (p : String × Nat) : String :=
  ⟨['B', 'E', '0'] ++ p.1.data ++ ['-'] ++ lang.data ++ ['-', 'h'] ++
    natChars p.2 ++ ['.', 'j', 'p', 'g']⟩

/-- The filename under which the loop stores an accepted image in the zip. -/
def zipName (lang : String) (e : ZipEntry) : String := pairName lang (e.cnk, e.n)

/-- The zip archive written by a run: every accepted entry under its
rendered filename. -/
def zipFiles (lang : String) (s : RunState) : List (String × List Nat) :=
  s.entries.map (fun e => (zipName lang e, e.data))

theorem dash_notin_tail (m : Nat) : '-' ∉ ('h' :: (natChars m ++ ['.', 'j', 'p', 'g'])) := by
  intro hmem
  simp only [List.mem_cons, List.mem_append] at hmem
  rcases hmem with h1 | h2 | h3
  · exact absurd h1 (by decide)
  · exact mem_natChars_ne_dash m '-' h2 rfl
  · exact absurd h3 (by decide)

theorem pairName_injective (lang : String) : Function.Injective (pairName lang) := by
  intro p q h
  have hd : ['B', 'E', '0'] ++ p.1.data ++ ['-'] ++ lang.data ++ ['-', 'h'] ++
      natChars p.2 ++ ['.', 'j', 'p', 'g'] =
      ['B', 'E', '0'] ++ q.1.data ++ ['-'] ++ lang.data ++ ['-', 'h'] ++
      natChars q.2 ++ ['.', 'j', 'p', 'g'] := congrArg String.data h
  have h1 : ((p.1.data ++ ['-']) ++ lang.data) ++
      '-' :: ('h' :: (natChars p.2 ++ ['.', 'j', 'p', 'g'])) =
      ((q.1.data ++ ['-']) ++ lang.data) ++
      '-' :: ('h' :: (natChars q.2 ++ ['.', 'j', 'p', 'g'])) := by
    simpa [List.append_assoc] using hd
  obtain ⟨hx, hu⟩ := append_sep_inj h1 (dash_notin_tail p.2) (dash_notin_tail q.2)
  have hcnk : p.1 = q.1 := by
    have h2 : p.1.data ++ ['-'] = q.1.data ++ ['-'] := List.append_cancel_right hx
    exact String.ext (List.append_cancel_right h2)
  have hn : p.2 = q.2 := by
    have h3 : natChars p.2 ++ ['.', 'j', 'p', 'g'] =
        natChars q.2 ++ ['.', 'j', 'p', 'g'] := by
      simpa using hu
    exact natChars_inj _ _ (List.append_cancel_right h3)
  exact Prod.ext hcnk hn

theorem step_cases {Img : Type} (env : Env Img) (i2c : Int → Option String)
    (s : RunState) (r : PhotoRow) :
    ((step env i2c s r).entries = s.entries ∧ (step env i2c s r).counts = s.counts) ∨
    (∃ c img, cnkOf i2c r = some c ∧ c ≠ "" ∧
      (step env i2c s r).entries =
        s.entries ++ [⟨c, s.counts c + 1, env.jpeg (env.canvas img)⟩] ∧
      (step env i2c s r).counts =
        fun c2 => if c2 = c then s.counts c2 + 1 else s.counts c2) := by
  unfold step
  cases hcn : cnkOf i2c r with
  | none => left; exact ⟨rfl, rfl⟩
  | some c =>
    by_cases hc : c = ""
    · left; simp [hc]
    · simp only [if_neg hc]
      by_cases hu : urlFalsy (urlOf r) = true
      · left; simp [hu]
      · simp only [hu, if_false]
        cases hd : downloadImage env (urlOf r) with
        | none => left; exact ⟨rfl, rfl⟩
        | some img =>
          unfold dedupStep
          by_cases hm : env.md5 (env.jpeg (env.canvas img)) ∈ s.hashes c
          · left; simp [hm]
          · right
            exact ⟨c, img, rfl, hc, by simp [hm], by simp [hm]⟩

theorem counterInv_step {Img : Type} (env : Env Img) (i2c : Int → Option String)
    (s : RunState) (r : PhotoRow)
    (hA : ∀ c, ((s.entries.filter (fun e => e.cnk == c)).map (fun e => e.n)) =
      List.range' 1 (s.counts c))
    (hN : (s.entries.map (fun e => (e.cnk, e.n))).Nodup) :
    (∀ c, (((step env i2c s r).entries.filter (fun e => e.cnk == c)).map (fun e => e.n)) =
      List.range' 1 ((step env i2c s r).counts c)) ∧
    ((step env i2c s r).entries.map (fun e => (e.cnk, e.n))).Nodup := by
  have hbound : ∀ e ∈ s.entries, e.n ≤ s.counts e.cnk := by
    intro e he
    have h1 : e ∈ s.entries.filter (fun x => x.cnk == e.cnk) :=
      List.mem_filter.mpr ⟨he, by simp⟩
    have h2 : e.n ∈ (s.entries.filter (fun x => x.cnk == e.cnk)).map (fun x => x.n) :=
      List.mem_map_of_mem _ h1
    rw [hA e.cnk] at h2
    have := List.mem_range'_1.mp h2
    omega
  rcases step_cases env i2c s r with ⟨he, hco⟩ | ⟨c0, img, _, _, he, hco⟩
  · rw [he, hco]; exact ⟨hA, hN⟩
  · constructor
    · intro c
      rw [he, hco]
      by_cases hcc : c = c0
      · subst hcc
        simp only [List.filter_append, List.map_append, if_pos rfl]
        have hsing :
            List.filter (fun e => e.cnk == c)
              [(⟨c, s.counts c + 1, env.jpeg (env.canvas img)⟩ : ZipEntry)] =
            [⟨c, s.counts c + 1, env.jpeg (env.canvas img)⟩] := by simp
        rw [hsing, hA c]
        simp only [List.map_cons, List.map_nil, eq_self_iff_true, if_true]
        rw [List.range'_concat]
        simp [Nat.add_comm]
      · have hc0c : c0 ≠ c := fun hh => hcc hh.symm
        simp only [List.filter_append, List.map_append, if_neg hcc]
        have hsing :
            List.filter (fun e => e.cnk == c)
              [(⟨c0, s.counts c0 + 1, env.jpeg (env.canvas img)⟩ : ZipEntry)] = [] := by
          simp [hc0c]
        rw [hsing, hA c]
        simp
    · rw [he]
      simp only [List.map_append]
      rw [List.nodup_append]
      refine ⟨hN, by simp, ?_⟩
      intro a ha hb
      simp only [List.map_cons, List.map_nil, List.mem_singleton] at hb
      obtain ⟨e, he1, he2⟩ := List.mem_map.mp ha
      rw [hb] at he2
      have hc : e.cnk = c0 := congrArg Prod.fst he2
      have hn : e.n = s.counts c0 + 1 := congrArg Prod.snd he2
      have := hbound e he1
      rw [hc] at this
      omega

theorem counterInv_foldl {Img : Type} (env : Env Img) (i2c : Int → Option String) :
    ∀ (l : List PhotoRow) (s : RunState),
      (∀ c, ((s.entries.filter (fun e => e.cnk == c)).map (fun e => e.n)) =
        List.range' 1 (s.counts c)) →
      (s.entries.map (fun e => (e.cnk, e.n))).Nodup →
      (∀ c, (((l.foldl (step env i2c) s).entries.filter (fun e => e.cnk == c)).map
        (fun e => e.n)) = List.range' 1 ((l.foldl (step env i2c) s).counts c)) ∧
      ((l.foldl (step env i2c) s).entries.map (fun e => (e.cnk, e.n))).Nodup := by
  intro l
  induction l with
  | nil => intro s hA hN; exact ⟨hA, hN⟩
  | cons r t ih =>
    intro s hA hN
    obtain ⟨hA2, hN2⟩ := counterInv_step env i2c s r hA hN
    exact ih _ hA2 hN2

/-- C7: in every run, the archived entries of each product code carry the
counter values 1..N in order, N being the number of accepted images of that
code, and the filenames of the whole archive, rendered by the
BE0-code-lang-h-counter scheme, are pairwise distinct. -/
theorem C7_filenames_unique {Img : Type} (env : Env Img) (i2c : Int → Option String)
    (lang : String) (rows : List PhotoRow) :
    (∀ c, (((buildZipAndMissing env i2c rows).entries.filter
        (fun e => e.cnk == c)).map (fun e => e.n)) =
      List.range' 1 (((buildZipAndMissing env i2c rows).entries.filter
        (fun e => e.cnk == c)).length)) ∧
    ((zipFiles lang (buildZipAndMissing env i2c rows)).map (fun f => f.1)).Nodup := by
  obtain ⟨hA, hN⟩ := counterInv_foldl env i2c
    (sortRows (rows.filter (fun r => r.url.isSome))) initState
    (by intro c; simp [initState]) (by simp [initState])
  constructor
  · intro c
    have hlen : (((buildZipAndMissing env i2c rows).entries.filter
        (fun e => e.cnk == c)).length) = (buildZipAndMissing env i2c rows).counts c := by
      have := congrArg List.length (hA c)
      simpa using this
    rw [hlen]
    exact hA c
  · have hmap : (zipFiles lang (buildZipAndMissing env i2c rows)).map (fun f => f.1) =
        ((buildZipAndMissing env i2c rows).entries.map
          (fun e => (e.cnk, e.n))).map (pairName lang) := by
      simp only [zipFiles, List.map_map]
      rfl
    rw [hmap]
    exact hN.map (pairName_injective lang)

end Medipim
